import Mathlib

/-!
Verification development for `backend/scripts/convert-addresses.py`.

The script converts a Cardano script hash (hex string) into a Bech32 address.
Below is a shallow embedding of the script's functions into Lean: Python ints
become `Nat` (Python ints are unbounded, and every bitwise operation in the
script is on nonnegative values, so no modular wrap-around is needed), Python
strings become `List Char`, Python `None` / raised exceptions become `Option`.
-/

namespace ConvertAddresses

set_option maxRecDepth 10000

/-- Generator constants `GEN` of `bech32_polymod`. -/
def GEN : List Nat := [0x3b6a57b2, 0x26508e6d, 0x1ea119fa, 0x3d4233dd, 0x2a1462b3]

/-- One iteration of the `for value in values` loop of `bech32_polymod`:
`b = chk >> 25`; `chk = (chk & 0x1ffffff) << 5 ^ value`; then
`for i in range(5): chk ^= GEN[i] if ((b >> i) & 1) else 0`. -/
def polymodStep (chk value : Nat) : Nat :=
  let b := chk >>> 25
  let chk1 := ((chk &&& 0x1ffffff) <<< 5) ^^^ value
  (List.range 5).foldl (fun c i => c ^^^ (if (b >>> i) &&& 1 ≠ 0 then GEN.getD i 0 else 0)) chk1

/-- Python `bech32_polymod(values)`: fold `polymodStep` over the values, starting from 1. -/
def bech32_polymod (values : List Nat) : Nat := values.foldl polymodStep 1

/-- Python `bech32_hrp_expand(hrp)`: `[ord(x) >> 5 for x in hrp] + [0] + [ord(x) & 31 for x in hrp]`. -/
def bech32_hrp_expand (hrp : List Char) : List Nat :=
  hrp.map (fun x => x.toNat >>> 5) ++ [0] ++ hrp.map (fun x => x.toNat &&& 31)

/-- Python `bech32_create_checksum(hrp, data)`. -/
def bech32_create_checksum (hrp : List Char) (data : List Nat) : List Nat :=
  let values := bech32_hrp_expand hrp ++ data
  let polymod := bech32_polymod (values ++ [0, 0, 0, 0, 0, 0]) ^^^ 1
  (List.range 6).map (fun i => (polymod >>> (5 * (5 - i))) &&& 31)

/-- The constant `BECH32_CHARSET`. -/
def BECH32_CHARSET : List Char := "qpzry9x8gf2tvdw0s3jn54khce6mua7l".data

/-- The list comprehension `[BECH32_CHARSET[d] for d in combined]` of
`bech32_encode`; Python raises `IndexError` when an index is out of range,
modelled as `none`. -/
def mapCharset : List Nat → Option (List Char)
  | [] => some []
  | d :: ds =>
    match BECH32_CHARSET.get? d, mapCharset ds with
    | some c, some cs => some (c :: cs)
    | _, _ => none

/-- Python `bech32_encode(hrp, data)`: `hrp + '1' + ''.join([BECH32_CHARSET[d] for d in combined])`. -/
def bech32_encode (hrp : List Char) (data : List Nat) : Option (List Char) :=
  let combined := data ++ bech32_create_checksum hrp data
  (mapCharset combined).map (fun cs => hrp ++ '1' :: cs)

/-- Fuelled form of the inner `while bits >= tobits` loop of `convertbits`:
repeatedly `bits -= tobits; ret.append((acc >> bits) & maxv)`. Each iteration
decreases `bits` by `tobits ≥ 1`, so `bits` itself is enough fuel; the fuel
only makes the recursion structural, it never changes the result (see
`cbWhileF_fuel_irrel`). In the script `tobits` is always 5 or 8; for
`tobits = 0` the Python loop would never terminate, so the guard also
requires `0 < tobits`. -/
def cbWhileF : Nat → Nat → Nat → Nat → Nat → List Nat → Nat × List Nat
  | 0, _, _, _, bits, ret => (bits, ret)
  | fuel + 1, tobits, maxv, acc, bits, ret =>
    if 0 < tobits ∧ tobits ≤ bits then
      cbWhileF fuel tobits maxv acc (bits - tobits) (ret ++ [(acc >>> (bits - tobits)) &&& maxv])
    else (bits, ret)

/-- The inner `while bits >= tobits` loop of `convertbits`, run to completion. -/
def cbWhile (tobits maxv acc bits : Nat) (ret : List Nat) : Nat × List Nat :=
  cbWhileF bits tobits maxv acc bits ret

/-- The body of the `for value in data` loop of `convertbits`, acting on the
state `(acc, bits, ret)`: `acc = ((acc << frombits) | value) & max_acc;
bits += frombits` followed by the inner while loop. -/
def cbStep (frombits tobits maxv maxAcc : Nat) (st : Nat × Nat × List Nat) (value : Nat) :
    Nat × Nat × List Nat :=
  let acc := ((st.1 <<< frombits) ||| value) &&& maxAcc
  let r := cbWhile tobits maxv acc (st.2.1 + frombits) st.2.2
  (acc, r.1, r.2)

/-- The full `for value in data` loop of `convertbits`, from the initial state
`acc = 0, bits = 0, ret = []`. -/
def cbFold (data : List Nat) (frombits tobits maxv maxAcc : Nat) : Nat × Nat × List Nat :=
  data.foldl (cbStep frombits tobits maxv maxAcc) (0, 0, [])

/-- Python `convertbits(data, frombits, tobits, pad)`. -/
def convertbits (data : List Nat) (frombits tobits : Nat) (pad : Bool) : Option (List Nat) :=
  let maxv := (1 <<< tobits) - 1
  let maxAcc := (1 <<< (frombits + tobits - 1)) - 1
  let st := cbFold data frombits tobits maxv maxAcc
  let acc := st.1
  let bits := st.2.1
  let ret := st.2.2
  if pad then
    if bits ≠ 0 then some (ret ++ [(acc <<< (tobits - bits)) &&& maxv]) else some ret
  else if frombits ≤ bits ∨ (acc <<< (tobits - bits)) &&& maxv ≠ 0 then none
  else some ret

/-- Value of a hex digit; Python `bytes.fromhex` accepts the ASCII digits
0-9, a-f and A-F. -/
def hexDigit? (c : Char) : Option Nat :=
  if '0' ≤ c ∧ c ≤ '9' then some (c.toNat - 48)
  else if 'a' ≤ c ∧ c ≤ 'f' then some (c.toNat - 87)
  else if 'A' ≤ c ∧ c ≤ 'F' then some (c.toNat - 55)
  else none

/-- The ASCII whitespace characters that Python `bytes.fromhex` skips between
byte pairs (Python 3.7 and later): space, tab, newline, vertical tab, form
feed and carriage return. -/
def isAsciiSpace (c : Char) : Bool :=
  c = ' ' || c = '\t' || c = '\n' || c = '\x0b' || c = '\x0c' || c = '\r'

/-- Models Python `bytes.fromhex` (Python 3.7 and later): ASCII whitespace is
skipped between byte pairs, then each byte is two adjacent hex digits; an odd
digit count, a non-hex non-whitespace character, or whitespace splitting a
pair raises `ValueError`, modelled as `none`. -/
def bytesFromHex : List Char → Option (List Nat)
  | [] => some []
  | c1 :: rest =>
    if isAsciiSpace c1 then bytesFromHex rest
    else
      match rest with
      | [] => none
      | c2 :: rest2 =>
        match hexDigit? c1, hexDigit? c2, bytesFromHex rest2 with
        | some hi, some lo, some bs => some ((16 * hi + lo) :: bs)
        | _, _, _ => none

/-- The header byte of `script_hash_to_address`:
`b'\x71' if network == 'mainnet' else b'\x70'`. -/
def header_byte (network : String) : Nat :=
  if network = "mainnet" then 0x71 else 0x70

/-- The human-readable part chosen by `script_hash_to_address`:
`'addr' if network == 'mainnet' else 'addr_test'`. -/
def hrp_for (network : String) : List Char :=
  if network = "mainnet" then "addr".data else "addr_test".data

/-- Python `script_hash.replace('0x', '')`: removes every non-overlapping
occurrence of the substring "0x", scanning left to right. -/
def replace0x : List Char → List Char
  | '0' :: 'x' :: rest => replace0x rest
  | c :: rest => c :: replace0x rest
  | [] => []

/-- Python `script_hash_to_address(script_hash, network)`. The call
`convertbits(address_data, 8, 5)` uses Python's default `pad=True`. -/
def script_hash_to_address (script_hash : List Char) (network : String) : Option (List Char) :=
  let hash_hex := replace0x script_hash
  match bytesFromHex hash_hex with
  | none => none
  | some hash_bytes =>
    let address_data := header_byte network :: hash_bytes
    match convertbits address_data 8 5 true with
    | none => none
    | some five_bit_data => bech32_encode (hrp_for network) five_bit_data

/-- The constant `ESCROW_SCRIPT_HASH` from the demonstration code. -/
def ESCROW_SCRIPT_HASH : List Char :=
  "795b08f17216887d0fdd83dec60790a79fba0998ac9d76eb2c7ed80a".data

/-- The constant `POOL_SCRIPT_HASH` from the demonstration code. -/
def POOL_SCRIPT_HASH : List Char :=
  "734799794c30fc4fe3431c3ccf811d15b6fed58d397d2cf1cde33a43".data

/-- The XOR of the generator constants selected by the low five bits of `b`:
the net effect of the `for i in range(5)` loop of `bech32_polymod`, started
from 0. -/
def gensFor (b : Nat) : Nat :=
  (List.range 5).foldl (fun c i => c ^^^ (if (b >>> i) &&& 1 ≠ 0 then GEN.getD i 0 else 0)) 0

/-! ### Reference definitions written from the specification's wording

These are deliberately phrased after the spec text (set-of-generators XOR,
one concatenated value sequence) rather than after the code, so that proving
them equal to the code's definitions is a genuine comparison. -/

/-- Reference formulation of one polymod step, following the spec's wording:
let `b = state >> 5`-high bits; shift and XOR the value in; then XOR in each
of the five generator constants whose bit of `b` is set. -/
def specPolymodStep (chk v : Nat) : Nat :=
  let b := chk >>> 25
  let state := ((chk &&& 0x1ffffff) <<< 5) ^^^ v
  ((List.range 5).filter fun i => b.testBit i).foldl (fun c i => c ^^^ GEN.getD i 0) state

/-- Reference checksum procedure, following the spec's wording: expand the
prefix as shifted and masked codepoints around a zero separator, append the
payload and six zero values, run the recurrence from state 1, XOR the result
with 1, and extract six 5-bit symbols most significant first. -/
def specChecksum (hrp : List Char) (data : List Nat) : List Nat :=
  let expanded := (hrp.map fun c => c.toNat >>> 5) ++ [0] ++ (hrp.map fun c => c.toNat &&& 31)
  let res := ((expanded ++ data ++ [0, 0, 0, 0, 0, 0]).foldl specPolymodStep 1) ^^^ 1
  (List.range 6).map fun i => (res >>> (5 * (5 - i))) &&& 31

/-- Modelled from the claim's wording, for comparison with the code: strip at
most one leading "0x". -/
def specStripLeading0x : List Char → List Char
  | '0' :: 'x' :: rest => rest
  | s => s

/-! ### Bit streams

`convertbits` is specified as a repacking of one bit stream (most significant
bit first); the following machinery makes that precise. -/

/-- The low `w` bits of `x`, most significant first. -/
def bitsOf : Nat → Nat → List Bool
  | 0, _ => []
  | w + 1, x => x.testBit w :: bitsOf w x

/-- The bit stream of a list of `w`-bit values, most significant bit first. -/
def stream (w : Nat) (data : List Nat) : List Bool := (data.map (bitsOf w)).flatten

theorem length_bitsOf (w x : Nat) : (bitsOf w x).length = w := by
  induction w with
  | zero => rfl
  | succ w ih => simp [bitsOf, ih]

theorem bitsOf_congr {w x y : Nat} (h : ∀ i, i < w → x.testBit i = y.testBit i) :
    bitsOf w x = bitsOf w y := by
  induction w with
  | zero => rfl
  | succ w ih =>
    simp only [bitsOf]
    rw [h w (Nat.lt_succ_self w), ih fun i hi => h i (Nat.lt_succ_of_lt hi)]

theorem bitsOf_split (m n x : Nat) :
    bitsOf (m + n) x = bitsOf m (x >>> n) ++ bitsOf n x := by
  induction m with
  | zero => simp [bitsOf]
  | succ m ih =>
    have hmn : m + 1 + n = (m + n) + 1 := by omega
    rw [hmn]
    simp only [bitsOf, ih, List.cons_append]
    congr 1
    rw [Nat.testBit_shiftRight]
    congr 1
    omega

theorem bitsOf_mod {w x n : Nat} (h : w ≤ n) : bitsOf w (x % 2 ^ n) = bitsOf w x := by
  refine bitsOf_congr fun i hi => ?_
  rw [Nat.testBit_mod_two_pow]
  simp [Nat.lt_of_lt_of_le hi h]

theorem bitsOf_mask {w x n : Nat} (h : w ≤ n) : bitsOf w (x &&& (2 ^ n - 1)) = bitsOf w x := by
  rw [Nat.and_pow_two_sub_one_eq_mod, bitsOf_mod h]

theorem bitsOf_mod_self (w x : Nat) : bitsOf w (x % 2 ^ w) = bitsOf w x :=
  bitsOf_mod (Nat.le_refl w)

theorem bitsOf_inj_mod {w x y : Nat} (h : bitsOf w x = bitsOf w y) :
    x % 2 ^ w = y % 2 ^ w := by
  induction w generalizing x y with
  | zero => simp [Nat.mod_one]
  | succ w ih =>
    simp only [bitsOf, List.cons.injEq] at h
    have htail := ih h.2
    have hbit : x / 2 ^ w % 2 = y / 2 ^ w % 2 := by
      have h1 := h.1
      rw [Nat.testBit_to_div_mod, Nat.testBit_to_div_mod, decide_eq_decide] at h1
      omega
    rw [Nat.mod_pow_succ, Nat.mod_pow_succ, htail, hbit]

theorem bitsOf_inj {w x y : Nat} (hx : x < 2 ^ w) (hy : y < 2 ^ w)
    (h : bitsOf w x = bitsOf w y) : x = y := by
  have := bitsOf_inj_mod h
  rwa [Nat.mod_eq_of_lt hx, Nat.mod_eq_of_lt hy] at this

theorem bitsOf_zero (w : Nat) : bitsOf w 0 = List.replicate w false := by
  induction w with
  | zero => rfl
  | succ w ih => simp [bitsOf, ih, Nat.zero_testBit, List.replicate_succ]

theorem bitsOf_eq_replicate_iff {w x : Nat} :
    bitsOf w x = List.replicate w false ↔ x % 2 ^ w = 0 := by
  constructor
  · intro h
    have := bitsOf_inj_mod (y := 0) (by rw [h, bitsOf_zero])
    simpa using this
  · intro h
    rw [← bitsOf_mod_self, h, bitsOf_zero]

theorem stream_nil (w : Nat) : stream w [] = [] := rfl

theorem stream_cons (w v : Nat) (l : List Nat) :
    stream w (v :: l) = bitsOf w v ++ stream w l := by
  simp [stream]

theorem stream_append (w : Nat) (l₁ l₂ : List Nat) :
    stream w (l₁ ++ l₂) = stream w l₁ ++ stream w l₂ := by
  simp [stream]

theorem length_stream (w : Nat) (l : List Nat) : (stream w l).length = w * l.length := by
  induction l with
  | nil => simp [stream_nil]
  | cons v l ih =>
    rw [stream_cons, List.length_append, length_bitsOf, ih, List.length_cons]
    ring

theorem stream_inj {w : Nat} (hw : 0 < w) :
    ∀ {l₁ l₂ : List Nat}, (∀ x ∈ l₁, x < 2 ^ w) → (∀ x ∈ l₂, x < 2 ^ w) →
      stream w l₁ = stream w l₂ → l₁ = l₂ := by
  intro l₁
  induction l₁ with
  | nil =>
    intro l₂ _ _ h
    cases l₂ with
    | nil => rfl
    | cons b t =>
      exfalso
      have := congrArg List.length h
      rw [length_stream, length_stream] at this
      simp at this
      omega
  | cons a t₁ ih =>
    intro l₂ h₁ h₂ h
    cases l₂ with
    | nil =>
      exfalso
      have := congrArg List.length h
      rw [length_stream, length_stream] at this
      simp at this
      omega
    | cons b t₂ =>
      rw [stream_cons, stream_cons] at h
      have hlen : (bitsOf w a).length = (bitsOf w b).length := by
        rw [length_bitsOf, length_bitsOf]
      obtain ⟨hhead, htail⟩ := List.append_inj h hlen
      have ha : a = b :=
        bitsOf_inj (h₁ a (List.mem_cons_self a t₁)) (h₂ b (List.mem_cons_self b t₂)) hhead
      have ht : t₁ = t₂ :=
        ih (fun x hx => h₁ x (List.mem_cons_of_mem a hx))
          (fun x hx => h₂ x (List.mem_cons_of_mem b hx)) htail
      rw [ha, ht]

/-! ### Characterization of the convertbits loops -/

theorem cbWhileF_fuel_irrel :
    ∀ (fuel₁ fuel₂ tobits maxv acc bits : Nat) (ret : List Nat),
      bits ≤ fuel₁ → bits ≤ fuel₂ →
      cbWhileF fuel₁ tobits maxv acc bits ret = cbWhileF fuel₂ tobits maxv acc bits ret := by
  intro fuel₁
  induction fuel₁ with
  | zero =>
    intro fuel₂ t maxv acc bits ret h₁ h₂
    have hb : bits = 0 := Nat.le_zero.mp h₁
    subst hb
    cases fuel₂ with
    | zero => rfl
    | succ f =>
      simp only [cbWhileF]
      rw [if_neg (by omega)]
  | succ f₁ ih =>
    intro fuel₂ t maxv acc bits ret h₁ h₂
    cases fuel₂ with
    | zero =>
      have hb : bits = 0 := Nat.le_zero.mp h₂
      subst hb
      simp only [cbWhileF]
      rw [if_neg (by omega)]
    | succ f₂ =>
      simp only [cbWhileF]
      by_cases hg : 0 < t ∧ t ≤ bits
      · rw [if_pos hg, if_pos hg]
        exact ih f₂ t maxv acc (bits - t) _ (by omega) (by omega)
      · rw [if_neg hg, if_neg hg]

theorem cbWhile_stop {tobits bits : Nat} (h : ¬(0 < tobits ∧ tobits ≤ bits))
    (maxv acc : Nat) (ret : List Nat) : cbWhile tobits maxv acc bits ret = (bits, ret) := by
  unfold cbWhile
  cases bits with
  | zero => rfl
  | succ b =>
    simp only [cbWhileF]
    rw [if_neg h]

theorem cbWhile_step {tobits bits : Nat} (ht : 0 < tobits) (hb : tobits ≤ bits)
    (maxv acc : Nat) (ret : List Nat) :
    cbWhile tobits maxv acc bits ret =
      cbWhile tobits maxv acc (bits - tobits) (ret ++ [(acc >>> (bits - tobits)) &&& maxv]) := by
  unfold cbWhile
  cases bits with
  | zero => omega
  | succ b =>
    simp only [cbWhileF]
    rw [if_pos ⟨ht, hb⟩]
    exact cbWhileF_fuel_irrel b (b + 1 - tobits) tobits maxv acc (b + 1 - tobits) _
      (by omega) (by omega)

theorem cbWhile_spec {t : Nat} (ht : 0 < t) :
    ∀ (bits acc : Nat) (ret : List Nat),
      (cbWhile t (2 ^ t - 1) acc bits ret).1 = bits % t ∧
      stream t (cbWhile t (2 ^ t - 1) acc bits ret).2 ++
          bitsOf (cbWhile t (2 ^ t - 1) acc bits ret).1 acc
        = stream t ret ++ bitsOf bits acc := by
  intro bits
  induction bits using Nat.strong_induction_on with
  | _ bits ih =>
    intro acc ret
    by_cases hb : t ≤ bits
    · rw [cbWhile_step ht hb]
      obtain ⟨h1, h2⟩ := ih (bits - t) (by omega) acc (ret ++ [(acc >>> (bits - t)) &&& (2 ^ t - 1)])
      refine ⟨by rw [h1, ← Nat.mod_eq_sub_mod hb], ?_⟩
      rw [h2, stream_append, stream_cons, stream_nil, List.append_nil,
        bitsOf_mask (Nat.le_refl t)]
      have e : t + (bits - t) = bits := by omega
      have hsplit := bitsOf_split t (bits - t) acc
      rw [e] at hsplit
      rw [List.append_assoc, ← hsplit]
    · rw [cbWhile_stop (by omega)]
      exact ⟨(Nat.mod_eq_of_lt (by omega)).symm, rfl⟩

theorem cbWhile_mem {t maxv : Nat} :
    ∀ (bits acc : Nat) (ret : List Nat) (x : Nat),
      x ∈ (cbWhile t maxv acc bits ret).2 → x ∈ ret ∨ x ≤ maxv := by
  intro bits
  induction bits using Nat.strong_induction_on with
  | _ bits ih =>
    intro acc ret x hx
    by_cases hg : 0 < t ∧ t ≤ bits
    · rw [cbWhile_step hg.1 hg.2] at hx
      rcases ih (bits - t) (by omega) acc _ x hx with hmem | hle
      · rcases List.mem_append.mp hmem with h | h
        · exact Or.inl h
        · rcases List.mem_singleton.mp h with rfl
          exact Or.inr Nat.and_le_right
      · exact Or.inr hle
    · rw [cbWhile_stop hg] at hx
      exact Or.inl hx

theorem cbStep_spec {f t : Nat} (ht : 0 < t) (acc bits : Nat) (ret : List Nat) (v : Nat)
    (hb : bits < t) (hv : v < 2 ^ f) :
    (cbStep f t (2 ^ t - 1) (2 ^ (f + t - 1) - 1) (acc, bits, ret) v).2.1 = (bits + f) % t ∧
    (cbStep f t (2 ^ t - 1) (2 ^ (f + t - 1) - 1) (acc, bits, ret) v).2.1 < t ∧
    stream t (cbStep f t (2 ^ t - 1) (2 ^ (f + t - 1) - 1) (acc, bits, ret) v).2.2 ++
        bitsOf (cbStep f t (2 ^ t - 1) (2 ^ (f + t - 1) - 1) (acc, bits, ret) v).2.1
          (cbStep f t (2 ^ t - 1) (2 ^ (f + t - 1) - 1) (acc, bits, ret) v).1
      = stream t ret ++ bitsOf bits acc ++ bitsOf f v := by
  have hX : bitsOf (bits + f) ((((acc <<< f) ||| v) &&& (2 ^ (f + t - 1) - 1)))
      = bitsOf bits acc ++ bitsOf f v := by
    rw [bitsOf_mask (by omega), bitsOf_split bits f]
    congr 1
    · refine bitsOf_congr fun j _ => ?_
      rw [Nat.testBit_shiftRight, Nat.testBit_or, Nat.testBit_shiftLeft]
      have hvb : v.testBit (f + j) = false :=
        Nat.testBit_lt_two_pow
          (Nat.lt_of_lt_of_le hv (Nat.pow_le_pow_right (by norm_num) (by omega)))
      simp [hvb, Nat.le_add_right, Nat.add_sub_cancel_left]
    · refine bitsOf_congr fun i hi => ?_
      rw [Nat.testBit_or, Nat.testBit_shiftLeft]
      simp [Nat.not_le.mpr hi]
  simp only [cbStep]
  obtain ⟨h1, h2⟩ := cbWhile_spec ht (bits + f) (((acc <<< f) ||| v) &&& (2 ^ (f + t - 1) - 1)) ret
  refine ⟨h1, by rw [h1]; exact Nat.mod_lt _ ht, ?_⟩
  rw [h2, hX, ← List.append_assoc]

theorem cbFold_go {f t : Nat} (ht : 0 < t) :
    ∀ (data : List Nat) (acc bits : Nat) (ret : List Nat), bits < t →
      (∀ v ∈ data, v < 2 ^ f) →
      (data.foldl (cbStep f t (2 ^ t - 1) (2 ^ (f + t - 1) - 1)) (acc, bits, ret)).2.1
          = (bits + f * data.length) % t ∧
      (data.foldl (cbStep f t (2 ^ t - 1) (2 ^ (f + t - 1) - 1)) (acc, bits, ret)).2.1 < t ∧
      stream t (data.foldl (cbStep f t (2 ^ t - 1) (2 ^ (f + t - 1) - 1)) (acc, bits, ret)).2.2 ++
          bitsOf (data.foldl (cbStep f t (2 ^ t - 1) (2 ^ (f + t - 1) - 1)) (acc, bits, ret)).2.1
            (data.foldl (cbStep f t (2 ^ t - 1) (2 ^ (f + t - 1) - 1)) (acc, bits, ret)).1
        = stream t ret ++ bitsOf bits acc ++ stream f data := by
  intro data
  induction data with
  | nil =>
    intro acc bits ret hb _
    refine ⟨by simp [Nat.mod_eq_of_lt hb], by simpa using hb, by simp [stream_nil]⟩
  | cons v rest ih =>
    intro acc bits ret hb hd
    obtain ⟨h1, h2, h3⟩ := cbStep_spec ht acc bits ret v hb (hd v (List.mem_cons_self v rest))
    have heta : cbStep f t (2 ^ t - 1) (2 ^ (f + t - 1) - 1) (acc, bits, ret) v
        = ((cbStep f t (2 ^ t - 1) (2 ^ (f + t - 1) - 1) (acc, bits, ret) v).1,
           (cbStep f t (2 ^ t - 1) (2 ^ (f + t - 1) - 1) (acc, bits, ret) v).2.1,
           (cbStep f t (2 ^ t - 1) (2 ^ (f + t - 1) - 1) (acc, bits, ret) v).2.2) := rfl
    obtain ⟨g1, g2, g3⟩ := ih (cbStep f t (2 ^ t - 1) (2 ^ (f + t - 1) - 1) (acc, bits, ret) v).1
      (cbStep f t (2 ^ t - 1) (2 ^ (f + t - 1) - 1) (acc, bits, ret) v).2.1
      (cbStep f t (2 ^ t - 1) (2 ^ (f + t - 1) - 1) (acc, bits, ret) v).2.2
      h2 (fun x hx => hd x (List.mem_cons_of_mem v hx))
    rw [← heta] at g1 g2 g3
    simp only [List.foldl_cons]
    refine ⟨?_, g2, ?_⟩
    · rw [g1, h1, Nat.mod_add_mod, List.length_cons, Nat.mul_succ]
      congr 1
      omega
    · rw [g3, h3, stream_cons]
      simp [List.append_assoc]

theorem cbFold_mem {f t maxv maxAcc : Nat} :
    ∀ (data : List Nat) (acc bits : Nat) (ret : List Nat) (x : Nat),
      x ∈ (data.foldl (cbStep f t maxv maxAcc) (acc, bits, ret)).2.2 →
      x ∈ ret ∨ x ≤ maxv := by
  intro data
  induction data with
  | nil => intro acc bits ret x hx; exact Or.inl hx
  | cons v rest ih =>
    intro acc bits ret x hx
    simp only [List.foldl_cons] at hx
    have heta : cbStep f t maxv maxAcc (acc, bits, ret) v
        = ((cbStep f t maxv maxAcc (acc, bits, ret) v).1,
           (cbStep f t maxv maxAcc (acc, bits, ret) v).2.1,
           (cbStep f t maxv maxAcc (acc, bits, ret) v).2.2) := rfl
    rw [heta] at hx
    rcases ih _ _ _ x hx with hmem | hle
    · simp only [cbStep] at hmem
      rcases cbWhile_mem _ _ _ x hmem with hmem' | hle'
      · exact Or.inl hmem'
      · exact Or.inr hle'
    · exact Or.inr hle

theorem shiftLeft_one_sub_one (t : Nat) : (1 <<< t) - 1 = 2 ^ t - 1 := by
  rw [Nat.shiftLeft_eq, one_mul]

theorem shiftLeft_shiftRight_self (a n : Nat) : (a <<< n) >>> n = a := by
  rw [Nat.shiftLeft_eq, Nat.shiftRight_eq_div_pow,
    Nat.mul_div_cancel a (Nat.pos_pow_of_pos n (by norm_num))]

theorem bitsOf_shiftLeft_low (a n w : Nat) (hw : w ≤ n) :
    bitsOf w (a <<< n) = List.replicate w false := by
  rw [← bitsOf_zero w]
  refine bitsOf_congr fun i hi => ?_
  rw [Nat.testBit_shiftLeft, Nat.zero_testBit]
  simp [Nat.not_le.mpr (Nat.lt_of_lt_of_le hi hw)]

theorem convertbits_pad (data : List Nat) (f t : Nat) (ht : 0 < t)
    (hd : ∀ v ∈ data, v < 2 ^ f) :
    ∃ ret, convertbits data f t true = some ret ∧
      (∀ x ∈ ret, x ≤ 2 ^ t - 1) ∧
      stream t ret = stream f data ++ List.replicate ((t - f * data.length % t) % t) false := by
  obtain ⟨h1, h2, h3⟩ := cbFold_go ht data 0 0 [] ht hd
  rw [stream_nil, List.nil_append, show bitsOf 0 0 = [] from rfl, List.nil_append] at h3
  rw [Nat.zero_add] at h1
  have hmem : ∀ x ∈ (List.foldl (cbStep f t (2 ^ t - 1) (2 ^ (f + t - 1) - 1)) (0, 0, []) data).2.2,
      x ≤ 2 ^ t - 1 := by
    intro x hx
    rcases cbFold_mem data 0 0 [] x hx with hin | hle
    · cases hin
    · exact hle
  simp only [convertbits, shiftLeft_one_sub_one, cbFold]
  set st := List.foldl (cbStep f t (2 ^ t - 1) (2 ^ (f + t - 1) - 1)) (0, 0, []) data with hst
  by_cases hz : st.2.1 = 0
  · refine ⟨_, by rw [if_pos trivial, if_neg (not_not_intro hz)], hmem, ?_⟩
    rw [← h1, hz, Nat.sub_zero, Nat.mod_self, List.replicate_zero, List.append_nil]
    have h4 := h3
    rw [hz, show bitsOf 0 st.1 = [] from rfl, List.append_nil] at h4
    exact h4
  · refine ⟨_, by rw [if_pos trivial, if_pos hz], ?_, ?_⟩
    · intro x hx
      rcases List.mem_append.mp hx with hin | hone
      · exact hmem x hin
      · rcases List.mem_singleton.mp hone with rfl
        exact Nat.and_le_right
    · rw [stream_append, stream_cons, stream_nil, List.append_nil,
        bitsOf_mask (Nat.le_refl t)]
      have hsplit := bitsOf_split st.2.1 (t - st.2.1) (st.1 <<< (t - st.2.1))
      rw [show st.2.1 + (t - st.2.1) = t by omega] at hsplit
      rw [hsplit, shiftLeft_shiftRight_self, bitsOf_shiftLeft_low _ _ _ (Nat.le_refl _),
        ← List.append_assoc, h3, ← h1, Nat.mod_eq_of_lt (by omega)]

theorem convertbits_pad_isSome (data : List Nat) (f t : Nat) :
    ∃ ret, convertbits data f t true = some ret ∧ ∀ x ∈ ret, x ≤ (1 <<< t) - 1 := by
  have hmem : ∀ x ∈ (cbFold data f t ((1 <<< t) - 1) ((1 <<< (f + t - 1)) - 1)).2.2,
      x ≤ (1 <<< t) - 1 := by
    intro x hx
    rw [cbFold] at hx
    rcases cbFold_mem data 0 0 [] x hx with hin | hle
    · cases hin
    · exact hle
  simp only [convertbits]
  by_cases hz : (cbFold data f t ((1 <<< t) - 1) ((1 <<< (f + t - 1)) - 1)).2.1 = 0
  · exact ⟨_, by rw [if_pos trivial, if_neg (not_not_intro hz)], fun x hx => hmem x hx⟩
  · refine ⟨_, by rw [if_pos trivial, if_pos hz], ?_⟩
    intro x hx
    rcases List.mem_append.mp hx with hin | hone
    · exact hmem x hin
    · rcases List.mem_singleton.mp hone with rfl
      exact Nat.and_le_right

theorem convertbits_nopad_of_stream (D B : List Nat) (z : Nat)
    (hD : ∀ x ∈ D, x < 2 ^ 5) (hB : ∀ x ∈ B, x < 2 ^ 8) (hz : z < 5)
    (hstream : stream 5 D = stream 8 B ++ List.replicate z false) :
    convertbits D 5 8 false = some B := by
  obtain ⟨h1, h2, h3⟩ := cbFold_go (t := 8) (by norm_num) D 0 0 [] (by norm_num) hD
  rw [stream_nil, List.nil_append, show bitsOf 0 0 = [] from rfl, List.nil_append] at h3
  set st := List.foldl (cbStep 5 8 (2 ^ 8 - 1) (2 ^ (5 + 8 - 1) - 1)) (0, 0, []) D with hst
  have hlen : 5 * D.length = 8 * B.length + z := by
    have := congrArg List.length hstream
    rw [length_stream, List.length_append, length_stream, List.length_replicate] at this
    omega
  have hbits : st.2.1 = z := by
    rw [h1, Nat.zero_add, hlen, Nat.mul_add_mod, Nat.mod_eq_of_lt (by omega)]
  rw [hstream] at h3
  have hsuffix : (bitsOf st.2.1 st.1).length = (List.replicate z false).length := by
    rw [length_bitsOf, List.length_replicate, hbits]
  obtain ⟨hretstream, hleft⟩ := List.append_inj' h3 hsuffix
  rw [hbits] at hleft
  have hret : st.2.2 = B := by
    refine stream_inj (by norm_num) ?_ hB hretstream
    intro x hx
    rw [hst] at hx
    rcases cbFold_mem D 0 0 [] x hx with hin | hle
    · cases hin
    · have hpow : (2 : Nat) ^ 8 - 1 < 2 ^ 8 := by norm_num
      omega
  have hacc : st.1 % 2 ^ z = 0 := bitsOf_eq_replicate_iff.mp hleft
  simp only [convertbits, shiftLeft_one_sub_one, cbFold, ← hst]
  rw [if_neg Bool.false_ne_true, if_neg, hret]
  rw [hbits]
  push_neg
  constructor
  · omega
  · rw [Nat.and_pow_two_sub_one_eq_mod, Nat.shiftLeft_eq]
    have hsplitpow : (2 : Nat) ^ 8 = 2 ^ z * 2 ^ (8 - z) := by
      rw [← pow_add]
      congr 1
      omega
    rw [hsplitpow, Nat.mul_mod_mul_right, hacc, Nat.zero_mul]

/-! ### The polymod recurrence

The error-detection claim rests on the fact that one step of the polymod
recurrence is injective in the state (for states below `2 ^ 30`) and injective
in the value, so a single changed symbol propagates to a changed final
remainder. -/

theorem foldl_xor_shift (g : Nat → Nat) :
    ∀ (l : List Nat) (a : Nat),
      l.foldl (fun c i => c ^^^ g i) a = a ^^^ l.foldl (fun c i => c ^^^ g i) 0 := by
  intro l
  induction l with
  | nil => intro a; simp
  | cons x rest ih =>
    intro a
    simp only [List.foldl_cons]
    rw [ih (a ^^^ g x), ih (0 ^^^ g x), Nat.zero_xor, Nat.xor_assoc]

theorem polymodStep_eq (chk v : Nat) :
    polymodStep chk v = (((chk &&& 0x1ffffff) <<< 5) ^^^ gensFor (chk >>> 25)) ^^^ v := by
  simp only [polymodStep, gensFor]
  rw [foldl_xor_shift (fun i => if (chk >>> 25 >>> i) &&& 1 ≠ 0 then GEN.getD i 0 else 0)]
  rw [Nat.xor_assoc, Nat.xor_assoc]
  congr 1
  rw [Nat.xor_comm]

theorem gensFor_lt (b : Nat) : gensFor b < 2 ^ 30 := by
  have he : ∀ i : Nat, i < 5 → (if (b >>> i) &&& 1 ≠ 0 then GEN.getD i 0 else 0) < 2 ^ 30 := by
    intro i hi
    interval_cases i <;> split <;> decide
  have hr : List.range 5 = [0, 1, 2, 3, 4] := rfl
  unfold gensFor
  rw [hr]
  simp only [List.foldl_cons, List.foldl_nil]
  exact Nat.xor_lt_two_pow
    (Nat.xor_lt_two_pow
      (Nat.xor_lt_two_pow
        (Nat.xor_lt_two_pow
          (Nat.xor_lt_two_pow (by norm_num) (he 0 (by norm_num)))
          (he 1 (by norm_num)))
        (he 2 (by norm_num)))
      (he 3 (by norm_num)))
    (he 4 (by norm_num))

theorem mask25_shift_lt (chk : Nat) : (chk &&& 0x1ffffff) <<< 5 < 2 ^ 30 := by
  rw [Nat.shiftLeft_eq, show (0x1ffffff : Nat) = 2 ^ 25 - 1 by norm_num,
    Nat.and_pow_two_sub_one_eq_mod]
  have h := Nat.mod_lt chk (y := 2 ^ 25) (by norm_num)
  norm_num at h ⊢
  omega

theorem polymodStep_lt {v : Nat} (hv : v < 2 ^ 30) (chk : Nat) :
    polymodStep chk v < 2 ^ 30 := by
  rw [polymodStep_eq]
  exact Nat.xor_lt_two_pow (Nat.xor_lt_two_pow (mask25_shift_lt chk) (gensFor_lt _)) hv

theorem gensFor_inj : ∀ b1, b1 < 32 → ∀ b2, b2 < 32 →
    gensFor b1 &&& 31 = gensFor b2 &&& 31 → b1 = b2 := by decide

theorem shiftRight25_lt {c : Nat} (h : c < 2 ^ 30) : c >>> 25 < 32 := by
  rw [Nat.shiftRight_eq_div_pow]
  exact Nat.div_lt_of_lt_mul (by norm_num at h ⊢; omega)

theorem polymodStep_inj {c1 c2 v : Nat} (h1 : c1 < 2 ^ 30) (h2 : c2 < 2 ^ 30)
    (h : polymodStep c1 v = polymodStep c2 v) : c1 = c2 := by
  rw [polymodStep_eq, polymodStep_eq] at h
  have hbase : ((c1 &&& 0x1ffffff) <<< 5) ^^^ gensFor (c1 >>> 25)
      = ((c2 &&& 0x1ffffff) <<< 5) ^^^ gensFor (c2 >>> 25) := by
    have h' := congrArg (fun x => x ^^^ v) h
    simp only at h'
    rwa [Nat.xor_cancel_right, Nat.xor_cancel_right] at h'
  have hmask0 : ∀ c : Nat, ((c &&& 0x1ffffff) <<< 5) &&& 31 = 0 := by
    intro c
    rw [Nat.shiftLeft_eq, show (31 : Nat) = 2 ^ 5 - 1 by norm_num,
      Nat.and_pow_two_sub_one_eq_mod, Nat.mul_mod_left]
  have hg : gensFor (c1 >>> 25) &&& 31 = gensFor (c2 >>> 25) &&& 31 := by
    have h' := congrArg (fun x => x &&& 31) hbase
    simp only at h'
    rwa [Nat.and_xor_distrib_right, Nat.and_xor_distrib_right, hmask0, hmask0,
      Nat.zero_xor, Nat.zero_xor] at h'
  have hb : c1 >>> 25 = c2 >>> 25 :=
    gensFor_inj _ (shiftRight25_lt h1) _ (shiftRight25_lt h2) hg
  have hX : (c1 &&& 0x1ffffff) <<< 5 = (c2 &&& 0x1ffffff) <<< 5 := by
    rw [hb] at hbase
    have h' := congrArg (fun x => x ^^^ gensFor (c2 >>> 25)) hbase
    simp only at h'
    rwa [Nat.xor_cancel_right, Nat.xor_cancel_right] at h'
  have hlow : c1 % 2 ^ 25 = c2 % 2 ^ 25 := by
    rw [Nat.shiftLeft_eq, Nat.shiftLeft_eq, show (0x1ffffff : Nat) = 2 ^ 25 - 1 by norm_num,
      Nat.and_pow_two_sub_one_eq_mod, Nat.and_pow_two_sub_one_eq_mod] at hX
    exact Nat.eq_of_mul_eq_mul_right (by norm_num) hX
  have hdiv : c1 / 2 ^ 25 = c2 / 2 ^ 25 := by
    rw [Nat.shiftRight_eq_div_pow, Nat.shiftRight_eq_div_pow] at hb
    exact hb
  have e1 : (2 : Nat) ^ 25 = 33554432 := by norm_num
  rw [e1] at hlow hdiv
  omega

theorem foldl_polymodStep_ne :
    ∀ (vs : List Nat) (c1 c2 : Nat), (∀ v ∈ vs, v < 2 ^ 30) → c1 < 2 ^ 30 → c2 < 2 ^ 30 →
      c1 ≠ c2 → vs.foldl polymodStep c1 ≠ vs.foldl polymodStep c2 := by
  intro vs
  induction vs with
  | nil => intro c1 c2 _ _ _ hne; simpa using hne
  | cons v rest ih =>
    intro c1 c2 hv h1 h2 hne
    simp only [List.foldl_cons]
    exact ih _ _ (fun x hx => hv x (List.mem_cons_of_mem v hx))
      (polymodStep_lt (hv v (List.mem_cons_self v rest)) c1)
      (polymodStep_lt (hv v (List.mem_cons_self v rest)) c2)
      (fun heq => hne (polymodStep_inj h1 h2 heq))

theorem foldl_polymodStep_lt :
    ∀ (vs : List Nat) (c : Nat), (∀ v ∈ vs, v < 2 ^ 30) → c < 2 ^ 30 →
      vs.foldl polymodStep c < 2 ^ 30 := by
  intro vs
  induction vs with
  | nil => intro c _ hc; simpa using hc
  | cons v rest ih =>
    intro c hv hc
    simp only [List.foldl_cons]
    exact ih _ (fun x hx => hv x (List.mem_cons_of_mem v hx))
      (polymodStep_lt (hv v (List.mem_cons_self v rest)) c)

theorem digits_inj : ∀ (n a b : Nat), a < 32 ^ n → b < 32 ^ n →
    (∀ j, j < n → a / 32 ^ j % 32 = b / 32 ^ j % 32) → a = b := by
  intro n
  induction n with
  | zero =>
    intro a b ha hb _
    simp only [pow_zero] at ha hb
    omega
  | succ n ih =>
    intro a b ha hb hj
    have h0 := hj 0 (by omega)
    simp only [pow_zero, Nat.div_one] at h0
    have hdiv : a / 32 = b / 32 := by
      refine ih (a / 32) (b / 32) ?_ ?_ ?_
      · refine Nat.div_lt_of_lt_mul ?_
        rw [← pow_succ']
        exact ha
      · refine Nat.div_lt_of_lt_mul ?_
        rw [← pow_succ']
        exact hb
      · intro j hjn
        rw [Nat.div_div_eq_div_mul, Nat.div_div_eq_div_mul,
          show (32 : Nat) * 32 ^ j = 32 ^ (j + 1) from (pow_succ' 32 j).symm]
        exact hj (j + 1) (by omega)
    omega

theorem extract_digit (p k : Nat) : (p >>> (5 * k)) &&& 31 = p / 32 ^ k % 32 := by
  rw [Nat.shiftRight_eq_div_pow, show (31 : Nat) = 2 ^ 5 - 1 by norm_num,
    Nat.and_pow_two_sub_one_eq_mod, pow_mul]
  norm_num

theorem extract6_inj {p1 p2 : Nat} (h1 : p1 < 2 ^ 30) (h2 : p2 < 2 ^ 30)
    (h : (List.range 6).map (fun i => (p1 >>> (5 * (5 - i))) &&& 31)
       = (List.range 6).map (fun i => (p2 >>> (5 * (5 - i))) &&& 31)) : p1 = p2 := by
  have hdig : ∀ i, i < 6 → p1 / 32 ^ (5 - i) % 32 = p2 / 32 ^ (5 - i) % 32 := by
    intro i hi
    rw [← extract_digit, ← extract_digit]
    have hr : List.range 6 = [0, 1, 2, 3, 4, 5] := rfl
    rw [hr, List.map_cons, List.map_cons, List.map_cons, List.map_cons, List.map_cons,
      List.map_cons, List.map_nil, List.map_cons, List.map_cons, List.map_cons,
      List.map_cons, List.map_cons, List.map_cons, List.map_nil] at h
    simp only [List.cons.injEq, and_true] at h
    obtain ⟨e0, e1, e2, e3, e4, e5⟩ := h
    interval_cases i
    · exact e0
    · exact e1
    · exact e2
    · exact e3
    · exact e4
    · exact e5
  refine digits_inj 6 p1 p2 (by norm_num at h1 ⊢; omega) (by norm_num at h2 ⊢; omega)
    fun j hjn => ?_
  have := hdig (5 - j) (by omega)
  rwa [show 5 - (5 - j) = j by omega] at this

theorem hrp_expand_bound {hrp : List Char} (hh : ∀ c ∈ hrp, c.toNat < 128) :
    ∀ v ∈ bech32_hrp_expand hrp, v < 2 ^ 30 := by
  intro v hv
  unfold bech32_hrp_expand at hv
  rcases List.mem_append.mp hv with h | h
  · rcases List.mem_append.mp h with h1 | h1
    · obtain ⟨c, hc, rfl⟩ := List.mem_map.mp h1
      have h128 := hh c hc
      rw [Nat.shiftRight_eq_div_pow]
      have hle := Nat.div_le_self c.toNat (2 ^ 5)
      norm_num at *
      omega
    · rw [List.mem_singleton.mp h1]
      norm_num
  · obtain ⟨c, _, rfl⟩ := List.mem_map.mp h
    have hle : c.toNat &&& 31 ≤ 31 := Nat.and_le_right
    norm_num at *
    omega

theorem checksum_values_bound {hrp : List Char} (hh : ∀ c ∈ hrp, c.toNat < 128)
    {mid : List Nat} (hmid : ∀ d ∈ mid, d < 32) :
    ∀ u ∈ (bech32_hrp_expand hrp ++ mid) ++ [0, 0, 0, 0, 0, 0], u < 2 ^ 30 := by
  intro u hu
  rcases List.mem_append.mp hu with h | h
  · rcases List.mem_append.mp h with h1 | h1
    · exact hrp_expand_bound hh u h1
    · have := hmid u h1
      norm_num
      omega
  · simp only [List.mem_cons, List.not_mem_nil, or_false, or_self] at h
    subst h
    norm_num

/-- A single mutated payload symbol always changes the checksum: the engine
behind the error-detection claim, stated on an explicit decomposition of the
payload around the mutated position. -/
theorem create_checksum_mutation_ne (hrp : List Char) (pre post : List Nat) (x v : Nat)
    (hh : ∀ c ∈ hrp, c.toNat < 128) (hpre : ∀ d ∈ pre, d < 32) (hpost : ∀ d ∈ post, d < 32)
    (hx : x < 32) (hv : v < 32) (hne : v ≠ x) :
    bech32_create_checksum hrp (pre ++ v :: post) ≠
      bech32_create_checksum hrp (pre ++ x :: post) := by
  intro heq
  have hb1 : ∀ u ∈ (bech32_hrp_expand hrp ++ (pre ++ v :: post)) ++ [0, 0, 0, 0, 0, 0],
      u < 2 ^ 30 := by
    refine checksum_values_bound hh fun d hd => ?_
    rcases List.mem_append.mp hd with h1 | h1
    · exact hpre d h1
    · rcases List.mem_cons.mp h1 with rfl | h2
      · exact hv
      · exact hpost d h2
  have hb2 : ∀ u ∈ (bech32_hrp_expand hrp ++ (pre ++ x :: post)) ++ [0, 0, 0, 0, 0, 0],
      u < 2 ^ 30 := by
    refine checksum_values_bound hh fun d hd => ?_
    rcases List.mem_append.mp hd with h1 | h1
    · exact hpre d h1
    · rcases List.mem_cons.mp h1 with rfl | h2
      · exact hx
      · exact hpost d h2
  have hlt1 : bech32_polymod ((bech32_hrp_expand hrp ++ (pre ++ v :: post)) ++
      [0, 0, 0, 0, 0, 0]) ^^^ 1 < 2 ^ 30 := by
    refine Nat.xor_lt_two_pow ?_ (by norm_num)
    exact foldl_polymodStep_lt _ 1 hb1 (by norm_num)
  have hlt2 : bech32_polymod ((bech32_hrp_expand hrp ++ (pre ++ x :: post)) ++
      [0, 0, 0, 0, 0, 0]) ^^^ 1 < 2 ^ 30 := by
    refine Nat.xor_lt_two_pow ?_ (by norm_num)
    exact foldl_polymodStep_lt _ 1 hb2 (by norm_num)
  unfold bech32_create_checksum at heq
  have hp := extract6_inj hlt1 hlt2 heq
  have hp' : bech32_polymod ((bech32_hrp_expand hrp ++ (pre ++ v :: post)) ++
      [0, 0, 0, 0, 0, 0]) = bech32_polymod ((bech32_hrp_expand hrp ++ (pre ++ x :: post)) ++
      [0, 0, 0, 0, 0, 0]) := by
    have h' := congrArg (fun y => y ^^^ 1) hp
    simp only at h'
    rwa [Nat.xor_cancel_right, Nat.xor_cancel_right] at h'
  have harr : ∀ w : Nat, (bech32_hrp_expand hrp ++ (pre ++ w :: post)) ++ [0, 0, 0, 0, 0, 0]
      = (bech32_hrp_expand hrp ++ pre) ++ (w :: (post ++ [0, 0, 0, 0, 0, 0])) := by
    intro w
    simp [List.append_assoc]
  unfold bech32_polymod at hp'
  rw [harr v, harr x] at hp'
  have htail : ∀ u ∈ post ++ [0, 0, 0, 0, 0, 0], u < 2 ^ 30 := by
    intro u hu
    rcases List.mem_append.mp hu with h1 | h1
    · have := hpost u h1
      norm_num
      omega
    · simp only [List.mem_cons, List.not_mem_nil, or_false, or_self] at h1
      subst h1
      norm_num
  have hstep_ne : polymodStep (List.foldl polymodStep 1 (bech32_hrp_expand hrp ++ pre)) v ≠
      polymodStep (List.foldl polymodStep 1 (bech32_hrp_expand hrp ++ pre)) x := by
    rw [polymodStep_eq, polymodStep_eq]
    intro hB
    apply hne
    calc v = _ ^^^ (_ ^^^ v) := (Nat.xor_cancel_left _ v).symm
      _ = _ ^^^ (_ ^^^ x) := by rw [hB]
      _ = x := Nat.xor_cancel_left _ x
  apply foldl_polymodStep_ne (post ++ [0, 0, 0, 0, 0, 0])
    (polymodStep (List.foldl polymodStep 1 (bech32_hrp_expand hrp ++ pre)) v)
    (polymodStep (List.foldl polymodStep 1 (bech32_hrp_expand hrp ++ pre)) x)
    htail (polymodStep_lt (by norm_num; omega) _) (polymodStep_lt (by norm_num; omega) _)
    hstep_ne
  simp only [List.foldl_append, List.foldl_cons, List.foldl_nil] at hp' ⊢
  exact hp'

/-! ### The encoder and the hex decoder -/

theorem checksum_symbols_lt (hrp : List Char) (data : List Nat) :
    ∀ x ∈ bech32_create_checksum hrp data, x < 32 := by
  intro x hx
  unfold bech32_create_checksum at hx
  obtain ⟨i, _, rfl⟩ := List.mem_map.mp hx
  exact Nat.lt_succ_of_le Nat.and_le_right

theorem charset_getD_mem {d : Nat} (hd : d < 32) : BECH32_CHARSET.getD d ' ' ∈ BECH32_CHARSET := by
  have hlen : d < BECH32_CHARSET.length := by
    rw [show BECH32_CHARSET.length = 32 by decide]
    exact hd
  rw [List.getD_eq_getElem?_getD, List.getElem?_eq_getElem hlen]
  exact List.getElem_mem hlen

theorem mapCharset_some {l : List Nat} (hl : ∀ d ∈ l, d < 32) :
    mapCharset l = some (l.map fun d => BECH32_CHARSET.getD d ' ') := by
  induction l with
  | nil => rfl
  | cons d ds ih =>
    have hd : d < 32 := hl d (List.mem_cons_self d ds)
    have hlen : d < BECH32_CHARSET.length := by
      rw [show BECH32_CHARSET.length = 32 by decide]
      exact hd
    have hget : BECH32_CHARSET.get? d = some (BECH32_CHARSET.getD d ' ') := by
      rw [List.getD_eq_getElem?_getD, List.getElem?_eq_getElem hlen,
        List.get?_eq_getElem?, List.getElem?_eq_getElem hlen]
      rfl
    simp only [mapCharset, List.map_cons, hget, ih fun x hx => hl x (List.mem_cons_of_mem d hx)]

theorem bech32_encode_some (hrp : List Char) (data : List Nat) (hd : ∀ d ∈ data, d < 32) :
    bech32_encode hrp data = some (hrp ++ '1' ::
      ((data ++ bech32_create_checksum hrp data).map fun d => BECH32_CHARSET.getD d ' ')) := by
  have hcomb : ∀ d ∈ data ++ bech32_create_checksum hrp data, d < 32 := by
    intro d hd'
    rcases List.mem_append.mp hd' with h | h
    · exact hd d h
    · exact checksum_symbols_lt hrp data d h
  simp only [bech32_encode]
  rw [mapCharset_some hcomb]
  rfl

/-- When the hex decode succeeds the whole address pipeline succeeds, and the
result is the prefix, the separator, and the 5-bit symbols mapped through the
alphabet. -/
theorem script_hash_to_address_some {s : List Char} {network : String} {bs : List Nat}
    (hbs : bytesFromHex (replace0x s) = some bs) :
    ∃ five, convertbits (header_byte network :: bs) 8 5 true = some five ∧
      (∀ x ∈ five, x < 32) ∧
      script_hash_to_address s network = some (hrp_for network ++ '1' ::
        ((five ++ bech32_create_checksum (hrp_for network) five).map
          fun d => BECH32_CHARSET.getD d ' ')) := by
  obtain ⟨five, hfive, hmem⟩ := convertbits_pad_isSome (header_byte network :: bs) 8 5
  have hmem' : ∀ x ∈ five, x < 32 := by
    intro x hx
    have := hmem x hx
    norm_num at this
    omega
  refine ⟨five, hfive, hmem', ?_⟩
  simp only [script_hash_to_address, hbs, hfive]
  exact bech32_encode_some _ _ hmem'

theorem script_hash_to_address_none {s : List Char} (network : String)
    (hbs : bytesFromHex (replace0x s) = none) :
    script_hash_to_address s network = none := by
  simp only [script_hash_to_address, hbs]

/-- Failure characterization of the hex decoder on whitespace-free input: it
fails exactly on an odd number of digits or a non-hex character. -/
theorem bytesFromHex_none_iff :
    ∀ l : List Char, (∀ c ∈ l, isAsciiSpace c = false) →
      (bytesFromHex l = none ↔ l.length % 2 = 1 ∨ ∃ c ∈ l, hexDigit? c = none) := by
  intro l
  induction l using bytesFromHex.induct with
  | case1 =>
    intro _
    rw [bytesFromHex.eq_1]
    simp
  | case2 c rest hws ih =>
    intro hsp
    rw [hsp c (List.mem_cons_self c rest)] at hws
    exact absurd hws Bool.false_ne_true
  | case3 c hws =>
    intro _
    rw [bytesFromHex.eq_2, if_neg hws]
    exact iff_of_true rfl (Or.inl rfl)
  | case4 c1 hws c2 rest hi lo bs hr hc2 hc1 ih =>
    intro hsp
    have ih' := ih fun c hc => hsp c (List.mem_cons_of_mem c1 (List.mem_cons_of_mem c2 hc))
    have hval : bytesFromHex (c1 :: c2 :: rest) = some ((16 * hi + lo) :: bs) := by
      rw [bytesFromHex.eq_3, if_neg hws, hc1, hc2, hr]
    rw [hval]
    refine iff_of_false (by simp) ?_
    intro hcond
    have hrn : ¬(rest.length % 2 = 1 ∨ ∃ c ∈ rest, hexDigit? c = none) := by
      intro hcontra
      rw [ih'.mpr hcontra] at hr
      exact Option.noConfusion hr
    rcases hcond with hodd | ⟨c, hc, hcn⟩
    · simp only [List.length_cons] at hodd
      exact hrn (Or.inl (by omega))
    · rcases List.mem_cons.mp hc with rfl | hc'
      · rw [hc1] at hcn
        exact Option.noConfusion hcn
      · rcases List.mem_cons.mp hc' with rfl | hc''
        · rw [hc2] at hcn
          exact Option.noConfusion hcn
        · exact hrn (Or.inr ⟨c, hc'', hcn⟩)
  | case5 c1 hws c2 rest hfail ih =>
    intro hsp
    have ih' := ih fun c hc => hsp c (List.mem_cons_of_mem c1 (List.mem_cons_of_mem c2 hc))
    have hval : bytesFromHex (c1 :: c2 :: rest) = none := by
      rw [bytesFromHex.eq_3, if_neg hws]
      cases hc1 : hexDigit? c1 with
      | none => rfl
      | some d1 =>
        cases hc2 : hexDigit? c2 with
        | none => rfl
        | some d2 =>
          cases hr : bytesFromHex rest with
          | none => rfl
          | some bsr => exact (hfail d1 d2 bsr hc1 hc2 hr).elim
    rw [hval]
    refine iff_of_true rfl ?_
    cases hc1 : hexDigit? c1 with
    | none => exact Or.inr ⟨c1, List.mem_cons_self c1 _, hc1⟩
    | some d1 =>
      cases hc2 : hexDigit? c2 with
      | none => exact Or.inr ⟨c2, List.mem_cons_of_mem c1 (List.mem_cons_self c2 rest), hc2⟩
      | some d2 =>
        cases hr : bytesFromHex rest with
        | none =>
          rcases ih'.mp hr with hodd | ⟨c, hc, hcn⟩
          · left
            simp only [List.length_cons]
            omega
          · exact Or.inr ⟨c, List.mem_cons_of_mem c1 (List.mem_cons_of_mem c2 hc), hcn⟩
        | some bsr => exact (hfail d1 d2 bsr hc1 hc2 hr).elim

/-! ### The code checksum equals the specification reference procedure -/

theorem testBit_iff_and_one (b i : Nat) : b.testBit i ↔ (b >>> i) &&& 1 ≠ 0 := by
  simp only [Nat.testBit_to_div_mod, Nat.and_one_is_mod, Nat.shiftRight_eq_div_pow,
    decide_eq_true_eq]
  omega

theorem foldl_xor_if_filter (p : Nat → Bool) (g : Nat → Nat) :
    ∀ (l : List Nat) (a : Nat),
      l.foldl (fun c i => c ^^^ (if p i then g i else 0)) a
        = (l.filter p).foldl (fun c i => c ^^^ g i) a := by
  intro l
  induction l with
  | nil => intro a; rfl
  | cons x rest ih =>
    intro a
    cases hp : p x with
    | true =>
      rw [List.filter_cons_of_pos hp]
      simp only [List.foldl_cons]
      rw [if_pos hp]
      exact ih (a ^^^ g x)
    | false =>
      rw [List.filter_cons_of_neg (by simp [hp])]
      simp only [List.foldl_cons]
      rw [if_neg (by simp [hp]), Nat.xor_zero]
      exact ih a

theorem polymodStep_eq_spec : polymodStep = specPolymodStep := by
  funext chk v
  simp only [polymodStep, specPolymodStep]
  have hfun : (fun (c i : Nat) =>
      c ^^^ (if (chk >>> 25 >>> i) &&& 1 ≠ 0 then GEN.getD i 0 else 0))
      = fun (c i : Nat) => c ^^^ (if (chk >>> 25).testBit i then GEN.getD i 0 else 0) := by
    funext c i
    by_cases h : (chk >>> 25).testBit i
    · rw [if_pos h, if_pos ((testBit_iff_and_one _ _).mp h)]
    · rw [if_neg h, if_neg fun hc => h ((testBit_iff_and_one _ _).mpr hc)]
  rw [hfun, foldl_xor_if_filter]

theorem create_checksum_eq_spec (hrp : List Char) (data : List Nat) :
    bech32_create_checksum hrp data = specChecksum hrp data := by
  simp only [bech32_create_checksum, specChecksum, bech32_polymod, bech32_hrp_expand,
    polymodStep_eq_spec, List.append_assoc]

/-! ### Claims -/

/-- C1: for every ASCII prefix and every payload of 5-bit symbols,
`bech32_create_checksum` returns exactly 6 symbols, each in `[0, 31]`, equal
to the spec's reference procedure (expand the prefix, append payload and six
zeros, run the polymod recurrence from state 1, XOR with 1, extract six 5-bit
symbols most significant first). -/
theorem claim_C1 (hrp : List Char) (data : List Nat)
    (hh : ∀ c ∈ hrp, c.toNat < 128) (hd : ∀ d ∈ data, d < 32) :
    bech32_create_checksum hrp data = specChecksum hrp data ∧
    (bech32_create_checksum hrp data).length = 6 ∧
    ∀ x ∈ bech32_create_checksum hrp data, x ≤ 31 := by
  refine ⟨create_checksum_eq_spec hrp data, ?_, ?_⟩
  · simp [bech32_create_checksum]
  · intro x hx
    have := checksum_symbols_lt hrp data x hx
    omega

/-- Witness for C1 at the concrete prefix "addr" and payload `[1, 2, 3]`. -/
theorem claim_C1_witness :
    bech32_create_checksum "addr".data [1, 2, 3] = specChecksum "addr".data [1, 2, 3] ∧
    (bech32_create_checksum "addr".data [1, 2, 3]).length = 6 ∧
    ∀ x ∈ bech32_create_checksum "addr".data [1, 2, 3], x ≤ 31 :=
  claim_C1 "addr".data [1, 2, 3] (by decide) (by decide)

/-- C2: for every list of bytes, converting 8-to-5 bits with padding and then
5-to-8 bits without padding recovers the bytes exactly. -/
theorem claim_C2 (B : List Nat) (hB : ∀ b ∈ B, b < 256) :
    (convertbits B 8 5 true).bind (fun D => convertbits D 5 8 false) = some B := by
  obtain ⟨D, hD, hmem, hstream⟩ := convertbits_pad B 8 5 (by norm_num) (by
    intro v hv
    have := hB v hv
    norm_num
    omega)
  rw [hD]
  show convertbits D 5 8 false = some B
  refine convertbits_nopad_of_stream D B ((5 - 8 * B.length % 5) % 5) ?_ ?_
    (Nat.mod_lt _ (by norm_num)) hstream
  · intro x hx
    have := hmem x hx
    norm_num at this ⊢
    omega
  · intro x hx
    have := hB x hx
    norm_num
    omega

/-- Witness for C2 at the concrete byte list `[113, 121]`. -/
theorem claim_C2_witness :
    (convertbits [113, 121] 8 5 true).bind (fun D => convertbits D 5 8 false)
      = some [113, 121] :=
  claim_C2 [113, 121] (by decide)

/-- C3: for every network selector and valid hex script hash, the returned
address is the prefix, the separator '1', and the 5-bit data-plus-checksum
symbols mapped through the alphabet; consequently it starts with "addr1" on
mainnet and "addr_test1" otherwise, and every later character is in the
32-character alphabet. -/
theorem claim_C3 (s : List Char) (network : String) (bs : List Nat)
    (hbs : bytesFromHex (replace0x s) = some bs) :
    ∃ five, convertbits (header_byte network :: bs) 8 5 true = some five ∧
      script_hash_to_address s network = some ((hrp_for network ++ ['1']) ++
        ((five ++ bech32_create_checksum (hrp_for network) five).map
          fun d => BECH32_CHARSET.getD d ' ')) ∧
      (network = "mainnet" → hrp_for network ++ ['1'] = "addr1".data) ∧
      (network ≠ "mainnet" → hrp_for network ++ ['1'] = "addr_test1".data) ∧
      ∀ c ∈ (five ++ bech32_create_checksum (hrp_for network) five).map
          (fun d => BECH32_CHARSET.getD d ' '), c ∈ BECH32_CHARSET := by
  obtain ⟨five, hfive, hmem, haddr⟩ := script_hash_to_address_some hbs
  refine ⟨five, hfive, ?_, ?_, ?_, ?_⟩
  · rw [haddr]
    simp
  · intro hm
    simp only [hrp_for, if_pos hm]
    decide
  · intro hm
    simp only [hrp_for, if_neg hm]
    decide
  · intro c hc
    obtain ⟨d, hd, rfl⟩ := List.mem_map.mp hc
    refine charset_getD_mem ?_
    rcases List.mem_append.mp hd with h | h
    · exact hmem d h
    · exact checksum_symbols_lt _ _ d h

/-- Witness for C3 at the escrow hash and the "testnet" selector. -/
theorem claim_C3_witness :
    ∃ five, convertbits (header_byte "testnet" ::
        [121, 91, 8, 241, 114, 22, 136, 125, 15, 221, 131, 222, 198, 7, 144, 167,
         159, 186, 9, 152, 172, 157, 118, 235, 44, 126, 216, 10]) 8 5 true = some five ∧
      script_hash_to_address ESCROW_SCRIPT_HASH "testnet" = some ((hrp_for "testnet" ++ ['1']) ++
        ((five ++ bech32_create_checksum (hrp_for "testnet") five).map
          fun d => BECH32_CHARSET.getD d ' ')) ∧
      ("testnet" = "mainnet" → hrp_for "testnet" ++ ['1'] = "addr1".data) ∧
      ("testnet" ≠ "mainnet" → hrp_for "testnet" ++ ['1'] = "addr_test1".data) ∧
      ∀ c ∈ (five ++ bech32_create_checksum (hrp_for "testnet") five).map
          (fun d => BECH32_CHARSET.getD d ' '), c ∈ BECH32_CHARSET :=
  claim_C3 ESCROW_SCRIPT_HASH "testnet"
    [121, 91, 8, 241, 114, 22, 136, 125, 15, 221, 131, 222, 198, 7, 144, 167,
     159, 186, 9, 152, 172, 157, 118, 235, 44, 126, 216, 10] (by decide)

/-- C4 counterexample: the claim fails in two ways. On the input "0x0xab" the
code removes both "0x" occurrences and happily returns an address, while the
claim (strip at most one leading "0x", then raise on any non-hex character
such as the remaining 'x') demands a decoding error; and on the input
"ab\tcd", which contains the non-hex character tab in its remainder, the code
also returns an address (Python's hex decoder skips ASCII whitespace between
byte pairs) instead of the decoding error the claim demands. -/
theorem claim_C4_counterexample :
    replace0x "0x0xab".data = "ab".data ∧
    specStripLeading0x "0x0xab".data = "0xab".data ∧
    (∃ c ∈ specStripLeading0x "0x0xab".data, hexDigit? c = none) ∧
    script_hash_to_address "0x0xab".data "testnet" ≠ none ∧
    replace0x "ab\tcd".data = "ab\tcd".data ∧
    specStripLeading0x "ab\tcd".data = "ab\tcd".data ∧
    (∃ c ∈ "ab\tcd".data, hexDigit? c = none) ∧
    script_hash_to_address "ab\tcd".data "testnet" ≠ none := by
  refine ⟨by decide, by decide, ⟨'x', by decide, by decide⟩, by decide,
    by decide, by decide, ⟨'\t', by decide, by decide⟩, by decide⟩

/-- C4 amended: `script_hash_to_address` removes every occurrence of the
substring "0x" anywhere in the input (not only one leading occurrence), then
decodes the remainder with Python's hex decoder, which skips ASCII whitespace
between byte pairs; it returns a decoding failure exactly when that remainder
fails to decode - on whitespace-free remainders, exactly when the length is
odd or some character is not a hex digit - and never silently truncates. -/
theorem claim_C4 (s : List Char) (network : String) :
    (bytesFromHex (replace0x s) = none → script_hash_to_address s network = none) ∧
    (∀ bs, bytesFromHex (replace0x s) = some bs →
      ∃ a, script_hash_to_address s network = some a) ∧
    ((∀ c ∈ replace0x s, isAsciiSpace c = false) →
      (bytesFromHex (replace0x s) = none ↔
        (replace0x s).length % 2 = 1 ∨ ∃ c ∈ replace0x s, hexDigit? c = none)) := by
  refine ⟨fun h => script_hash_to_address_none network h, ?_,
    fun hsp => bytesFromHex_none_iff _ hsp⟩
  intro bs hbs
  obtain ⟨five, _, _, haddr⟩ := script_hash_to_address_some hbs
  exact ⟨_, haddr⟩

/-- Witness for the amended C4 on concrete inputs: a non-hex remainder fails,
a decodable input succeeds, and the odd/non-hex characterization holds. -/
theorem claim_C4_witness :
    script_hash_to_address "0xzz".data "testnet" = none ∧
    (∃ a, script_hash_to_address "0x0xab".data "testnet" = some a) ∧
    (bytesFromHex (replace0x "abc".data) = none ↔
      (replace0x "abc".data).length % 2 = 1 ∨ ∃ c ∈ replace0x "abc".data, hexDigit? c = none) :=
  ⟨(claim_C4 "0xzz".data "testnet").1 (by decide),
   (claim_C4 "0x0xab".data "testnet").2.1 [171] (by decide),
   (claim_C4 "abc".data "testnet").2.2 (by decide)⟩

/-- C5: the header byte is 0x71 and the prefix "addr" exactly for the network
string "mainnet"; every other network value - including unrecognized ones -
silently gets header 0x70, prefix "addr_test", and the same address as
"testnet". -/
theorem claim_C5 :
    (header_byte "mainnet" = 0x71 ∧ hrp_for "mainnet" = "addr".data) ∧
    ∀ network : String, network ≠ "mainnet" →
      header_byte network = 0x70 ∧ hrp_for network = "addr_test".data ∧
      ∀ s : List Char, script_hash_to_address s network = script_hash_to_address s "testnet" := by
  refine ⟨⟨rfl, rfl⟩, ?_⟩
  intro network hn
  have h1 : header_byte network = 0x70 := by simp [header_byte, hn]
  have h2 : hrp_for network = "addr_test".data := by simp [hrp_for, hn]
  have h3 : header_byte "testnet" = 0x70 := by decide
  have h4 : hrp_for "testnet" = "addr_test".data := by decide
  refine ⟨h1, h2, fun s => ?_⟩
  simp only [script_hash_to_address, h1, h2, h3, h4]

/-- Witness for C5 at the unrecognized network value "magicnet". -/
theorem claim_C5_witness :
    header_byte "magicnet" = 0x70 ∧ hrp_for "magicnet" = "addr_test".data ∧
    script_hash_to_address ESCROW_SCRIPT_HASH "magicnet" =
      script_hash_to_address ESCROW_SCRIPT_HASH "testnet" := by
  obtain ⟨h1, h2, h3⟩ := claim_C5.2 "magicnet" (by decide)
  exact ⟨h1, h2, h3 ESCROW_SCRIPT_HASH⟩

/-- C6: without padding, `convertbits` returns the sentinel `none` exactly
when the leftover bit count is at least `frombits` or the leftover bits are
non-zero after masking, and otherwise returns the converted sequence. -/
theorem claim_C6 (data : List Nat) (frombits tobits : Nat) (ht : 0 < tobits)
    (hd : ∀ v ∈ data, v < 2 ^ frombits) :
    (convertbits data frombits tobits false = none ↔
      frombits ≤ (cbFold data frombits tobits ((1 <<< tobits) - 1)
          ((1 <<< (frombits + tobits - 1)) - 1)).2.1 ∨
        ((cbFold data frombits tobits ((1 <<< tobits) - 1)
            ((1 <<< (frombits + tobits - 1)) - 1)).1 <<<
          (tobits - (cbFold data frombits tobits ((1 <<< tobits) - 1)
            ((1 <<< (frombits + tobits - 1)) - 1)).2.1)) &&& ((1 <<< tobits) - 1) ≠ 0) ∧
    (¬(frombits ≤ (cbFold data frombits tobits ((1 <<< tobits) - 1)
          ((1 <<< (frombits + tobits - 1)) - 1)).2.1 ∨
        ((cbFold data frombits tobits ((1 <<< tobits) - 1)
            ((1 <<< (frombits + tobits - 1)) - 1)).1 <<<
          (tobits - (cbFold data frombits tobits ((1 <<< tobits) - 1)
            ((1 <<< (frombits + tobits - 1)) - 1)).2.1)) &&& ((1 <<< tobits) - 1) ≠ 0) →
      convertbits data frombits tobits false = some (cbFold data frombits tobits
        ((1 <<< tobits) - 1) ((1 <<< (frombits + tobits - 1)) - 1)).2.2) := by
  constructor
  · by_cases hc : frombits ≤ (cbFold data frombits tobits ((1 <<< tobits) - 1)
          ((1 <<< (frombits + tobits - 1)) - 1)).2.1 ∨
        ((cbFold data frombits tobits ((1 <<< tobits) - 1)
            ((1 <<< (frombits + tobits - 1)) - 1)).1 <<<
          (tobits - (cbFold data frombits tobits ((1 <<< tobits) - 1)
            ((1 <<< (frombits + tobits - 1)) - 1)).2.1)) &&& ((1 <<< tobits) - 1) ≠ 0
    · refine iff_of_true ?_ hc
      simp only [convertbits]
      rw [if_neg Bool.false_ne_true, if_pos hc]
    · refine iff_of_false ?_ hc
      simp only [convertbits]
      rw [if_neg Bool.false_ne_true, if_neg hc]
      simp
  · intro hnc
    simp only [convertbits]
    rw [if_neg Bool.false_ne_true, if_neg hnc]

/-- Witness for C6: a leftover of 2 bits with `frombits = 2` is rejected, and
an exactly-representable input is converted. -/
theorem claim_C6_witness :
    convertbits [1] 2 3 false = none ∧
    convertbits [1] 1 1 false
      = some (cbFold [1] 1 1 ((1 <<< 1) - 1) ((1 <<< (1 + 1 - 1)) - 1)).2.2 :=
  ⟨((claim_C6 [1] 2 3 (by decide) (by decide)).1).mpr (by decide),
   (claim_C6 [1] 1 1 (by decide) (by decide)).2 (by decide)⟩

/-- C7: replacing any single payload symbol by a different 5-bit value always
changes the checksum. -/
theorem claim_C7 (hrp : List Char) (data : List Nat) (i v : Nat)
    (hh : ∀ c ∈ hrp, c.toNat < 128) (hd : ∀ d ∈ data, d < 32)
    (hi : i < data.length) (hv : v < 32) (hne : v ≠ data.get ⟨i, hi⟩) :
    bech32_create_checksum hrp (data.set i v) ≠ bech32_create_checksum hrp data := by
  have hdecomp : data = data.take i ++ data.get ⟨i, hi⟩ :: data.drop (i + 1) := by
    conv_lhs => rw [← List.take_append_drop i data]
    congr 1
    exact (List.cons_get_drop_succ (l := data) (n := ⟨i, hi⟩)).symm
  have hset : data.set i v = data.take i ++ v :: data.drop (i + 1) :=
    List.set_eq_take_cons_drop v hi
  have hmut := create_checksum_mutation_ne hrp (data.take i) (data.drop (i + 1))
    (data.get ⟨i, hi⟩) v hh
    (fun d hdm => hd d (List.take_subset i data hdm))
    (fun d hdm => hd d (List.drop_subset (i + 1) data hdm))
    (hd _ (List.get_mem data i hi)) hv hne
  rw [← hdecomp] at hmut
  rw [hset]
  exact hmut

/-- Witness for C7: mutating the only symbol of the payload `[0]` under the
prefix "a" changes the checksum. -/
theorem claim_C7_witness :
    bech32_create_checksum "a".data ([0].set 0 1) ≠ bech32_create_checksum "a".data [0] :=
  claim_C7 "a".data [0] 0 1 (by decide) (by decide) (by decide) (by decide) (by decide)

/-- C8 counterexample: with `frombits = 0` and `pad = False` the empty input
is rejected with the sentinel `none` (because `bits >= frombits` holds as
`0 >= 0`), so "for every frombits" is too strong. -/
theorem claim_C8_counterexample : convertbits [] 0 5 false = none := by decide

/-- C8 amended: for every positive `frombits`, every `tobits` and every pad
flag, `convertbits` maps the empty input to the empty output, not to an
error. -/
theorem claim_C8 (frombits tobits : Nat) (pad : Bool) (hf : 0 < frombits) :
    convertbits [] frombits tobits pad = some [] := by
  simp only [convertbits, cbFold, List.foldl_nil]
  cases pad with
  | true =>
    rw [if_pos rfl, if_neg (by simp)]
  | false =>
    rw [if_neg Bool.false_ne_true, if_neg]
    push_neg
    refine ⟨by omega, ?_⟩
    rw [Nat.zero_shiftLeft, Nat.zero_and]

/-- Witness for the amended C8 at `frombits = 8`, `tobits = 5`, no padding. -/
theorem claim_C8_witness : convertbits [] 8 5 false = some [] :=
  claim_C8 8 5 false (by decide)

/-- C9: the checksum and the address builder are deterministic functions, and
the two demonstration calls on the escrow hash reproduce fixed literal
addresses. -/
theorem claim_C9 :
    (∀ (hrp : List Char) (data : List Nat),
      bech32_create_checksum hrp data = bech32_create_checksum hrp data) ∧
    (∀ (h : List Char) (n : String),
      script_hash_to_address h n = script_hash_to_address h n) ∧
    script_hash_to_address ESCROW_SCRIPT_HASH "testnet" =
      some "addr_test1wpu4kz83wgtgslg0mkpaa3s8jznelwsfnzkf6aht93ldszsfh7ty7".data ∧
    script_hash_to_address ESCROW_SCRIPT_HASH "mainnet" =
      some "addr1w9u4kz83wgtgslg0mkpaa3s8jznelwsfnzkf6aht93ldszsjl2htm".data :=
  ⟨fun _ _ => rfl, fun _ _ => rfl, by decide, by decide⟩

/-- C10: with padding, `convertbits` never returns the sentinel and every
output symbol is at most `2 ^ tobits - 1`; hence in the address pipeline the
5-bit data is always in `[0, 31]` and the alphabet indexing never goes out of
range (the encoder returns an address, not an index error). -/
theorem claim_C10 :
    (∀ (data : List Nat) (frombits tobits : Nat), 0 < tobits →
      ∃ ret, convertbits data frombits tobits true = some ret ∧
        ∀ x ∈ ret, x ≤ 2 ^ tobits - 1) ∧
    (∀ (s : List Char) (network : String) (bs : List Nat),
      bytesFromHex (replace0x s) = some bs →
      ∃ five, convertbits (header_byte network :: bs) 8 5 true = some five ∧
        (∀ x ∈ five, x < 32) ∧
        ∃ addr, script_hash_to_address s network = some addr) := by
  constructor
  · intro data f t _
    obtain ⟨ret, hret, hmem⟩ := convertbits_pad_isSome data f t
    refine ⟨ret, hret, fun x hx => ?_⟩
    have := hmem x hx
    rwa [shiftLeft_one_sub_one] at this
  · intro s network bs hbs
    obtain ⟨five, hfive, hmem, haddr⟩ := script_hash_to_address_some hbs
    exact ⟨five, hfive, hmem, ⟨_, haddr⟩⟩

/-- Witness for C10 on the byte `[200]` and on a one-byte hash "ab". -/
theorem claim_C10_witness :
    (∃ ret, convertbits [200] 8 5 true = some ret ∧ ∀ x ∈ ret, x ≤ 2 ^ 5 - 1) ∧
    (∃ five, convertbits (header_byte "testnet" :: [171]) 8 5 true = some five ∧
      (∀ x ∈ five, x < 32) ∧
      ∃ addr, script_hash_to_address "ab".data "testnet" = some addr) :=
  ⟨claim_C10.1 [200] 8 5 (by decide),
   claim_C10.2 "ab".data "testnet" [171] (by decide)⟩

end ConvertAddresses
